import Mathlib

/-!
# Verification of the vscode-flowr session/protocol core

A shallow embedding of the session protocol client of `vscode-flowr`:

* the transport channel's frame reassembly (`FlowrServerSession.handleResponse`
  in `src/flowr/server-session.ts`),
* the one-shot response waiter and promise lifecycle (`awaitResponse`,
  `sendCommandWithResponse`, `destroy`),
* the location reconciliation of slice results (`retrieveSlice`),
* the dependency view's fingerprint cache and refresh short-circuit
  (`FlowrDependencyTreeView` in the dependency-view module),
* the module-level session handle (`destroySession` in `src/extension.ts`).

Strings are modelled as `List Char`; machine integers do not occur (all
counters are unbounded JS numbers used as small naturals).
-/

namespace Flowr

/-! ## Transport channel: frame reassembly (`handleResponse`)

```ts
private currentMessageBuffer = ''
handleResponse(message: string): void {
  if(!message.endsWith('\n')) {
    this.currentMessageBuffer += message
    return
  }
  message = this.currentMessageBuffer + message
  this.currentMessageBuffer = ''
  this.onceOnLineReceived?.(message)
  this.onceOnLineReceived = undefined
}
```
-/

/-- One step of `handleResponse` on buffer `buf` and incoming chunk `msg`:
if the chunk does not end with the terminator `'\n'` it is appended to the
buffer and nothing is emitted; otherwise the buffer plus the chunk is emitted
as one message and the buffer is cleared. -/
def handleResponse (buf msg : List Char) : List Char × Option (List Char) :=
  if msg.getLast? = some '\n' then ([], some (buf ++ msg))
  else (buf ++ msg, none)

/-- Feed a list of chunks through `handleResponse`, starting from buffer
`buf`; returns the final buffer and the ordered list of emitted messages
(the branch of `handleResponse` is inlined; see `processFrom_cons`). -/
def processFrom (buf : List Char) : List (List Char) → List Char × List (List Char)
  | [] => (buf, [])
  | c :: cs =>
    if c.getLast? = some '\n' then
      ((processFrom [] cs).1, (buf ++ c) :: (processFrom [] cs).2)
    else processFrom (buf ++ c) cs

/-- The messages emitted when a fresh channel receives the given chunks. -/
def processChunks (cs : List (List Char)) : List (List Char) :=
  (processFrom [] cs).2

/-- A frame on the wire: its content followed by the newline terminator. -/
def wire (f : List Char) : List Char := f ++ ['\n']

/-! ## Session state: one-shot waiter, promises, teardown

`awaitResponse` stores the `resolve` function of a fresh promise in the
nullable field `onceOnLineReceived`; `handleResponse` calls it (if present)
on a complete line and clears it; `destroy` destroys the socket and nothing
else.  We model each promise created by `awaitResponse` as an entry of a
growing list, and `onceOnLineReceived` as the index of the promise the stored
`resolve` belongs to.  After `socket.destroy()` the socket emits no further
`data` events. -/

/-- The state of one JS promise. -/
inductive PState
  | pending
  | resolved (line : List Char)
  | rejected (msg : List Char)
  deriving DecidableEq, Repr

/-- The observable state of a `FlowrServerSession`. -/
structure SessState where
  /-- every promise returned by `awaitResponse`, in creation order -/
  promises : List PState
  /-- `onceOnLineReceived`: index of the promise whose resolver is stored -/
  waiter : Option Nat
  /-- `currentMessageBuffer` -/
  buffer : List Char
  /-- whether `socket.destroy()` has been called -/
  destroyed : Bool
  deriving DecidableEq, Repr

/-- Events acting on a session. -/
inductive SEv
  | awaitResponse
  | data (chunk : List Char)
  | destroy
  | send (cmd : List Char)
  deriving DecidableEq, Repr

/-- One session transition, translated from `server-session.ts`:
`awaitResponse` registers a fresh pending promise as the (only) waiter,
overwriting any previous one; a `data` event (only possible while the socket
is not destroyed) runs `handleResponse`, resolving and clearing the waiter on
a complete line; `destroy` runs `this.socket.destroy()` and nothing else;
`sendCommand` writes to the socket and changes no session state. -/
def stepS (s : SessState) : SEv → SessState
  | .awaitResponse =>
    { s with promises := s.promises ++ [.pending], waiter := some s.promises.length }
  | .data chunk =>
    if s.destroyed then s
    else if chunk.getLast? = some '\n' then
      { s with
        buffer := []
        promises :=
          match s.waiter with
          | some i => s.promises.set i (.resolved (s.buffer ++ chunk))
          | none => s.promises
        waiter := none }
    else { s with buffer := s.buffer ++ chunk }
  | .destroy => { s with destroyed := true }
  | .send _ => s

/-- Run a list of session events. -/
def runS (s : SessState) (evs : List SEv) : SessState :=
  evs.foldl stepS s

/-- A freshly connected session. -/
def initSess : SessState := ⟨[], none, [], false⟩

/-! ## Module-level session handle (`extension.ts`)

```ts
export function destroySession() {
  flowrSession?.destroy()
  flowrSession = undefined
}
```
-/

/-- The module-level mutable handle `flowrSession`. -/
structure ModuleState where
  flowrSession : Option SessState
  deriving DecidableEq, Repr

/-- Effect of `destroySession`: destroy the held session (if any) and clear
the handle; returns the new module state, the destroyed session object (for
observation) and the list of `destroy` calls issued. -/
def destroySession (m : ModuleState) : ModuleState × Option SessState × List SEv :=
  match m.flowrSession with
  | some s => (⟨none⟩, some (stepS s .destroy), [.destroy])
  | none => (⟨none⟩, none, [])

/-! ## Location reconciliation (`retrieveSlice`)

```ts
const idToLocation = new Map<NodeId, SourceRange>()
visitAst(response.results.normalize.ast, n => {
  if(n.location) { idToLocation.set(n.info.id, n.location) }
})
...
const sliceElements = [...sliceResponse.results.slice.result]
  .map(id => ({ id, location: idToLocation.get(id) }))
  .filter(e => isNotUndefined(e.location))
sliceElements.sort((a, b) =>
  a.location.start.line - b.location.start.line ||
  a.location.start.column - b.location.start.column)
```
-/

/-- A source position (1-based line, column). -/
structure SourcePos where
  line : Nat
  column : Nat
  deriving DecidableEq, Repr

/-- A source range as used by the slice reconciliation. -/
structure SourceRange where
  start : SourcePos
  stop : SourcePos
  deriving DecidableEq, Repr

/-- Opaque AST node identifier. -/
abbrev NodeId := Nat

/-- One visited AST node: its id and (optional) location. -/
structure RNode where
  id : NodeId
  location : Option SourceRange
  deriving DecidableEq, Repr

/-- The location map built by `visitAst`: record `id ↦ location` for every
node carrying a location, later visits overwriting earlier ones
(`Map.set` semantics); lookup returns the last recorded binding. -/
def buildLocationMap (ns : List RNode) : NodeId → Option SourceRange :=
  fun i => ((ns.filterMap (fun n => n.location.map (fun l => (n.id, l)))).reverse).lookup i

/-- The comparator of `sliceElements.sort`, as the relation "does not come
strictly after": `a` precedes `b` when its start line is smaller, or lines
are equal and its start column is not larger. -/
def sliceLE (a b : NodeId × SourceRange) : Prop :=
  a.2.start.line < b.2.start.line ∨
    (a.2.start.line = b.2.start.line ∧ a.2.start.column ≤ b.2.start.column)

instance : DecidableRel sliceLE := fun a b => by
  unfold sliceLE; infer_instance

instance : IsTotal (NodeId × SourceRange) sliceLE :=
  ⟨fun a b => by unfold sliceLE; omega⟩

instance : IsTrans (NodeId × SourceRange) sliceLE :=
  ⟨fun a b c hab hbc => by unfold sliceLE at *; omega⟩

/-- The reconciliation step of `retrieveSlice`: pair every slice identifier
with its mapped location, drop the pairs with no location, sort by
(start line, start column). -/
def sliceElements (sliceResult : List NodeId) (m : NodeId → Option SourceRange) :
    List (NodeId × SourceRange) :=
  List.insertionSort sliceLE
    ((sliceResult.map (fun i => (i, m i))).filterMap
      (fun p => match p with
        | (i, some l) => some (i, l)
        | (_, none) => none))

/-! ## Fingerprint normalization (dependency view)

```ts
private textFingerprint(text: string): string {
  return text.trim().replace(/\s|^\s*#.*$/gm, '');
}
```

The regex alternation is ordered: at any position holding a whitespace
character the single-character alternative `\s` matches first, so the
alternative `^\s*#.*$` can only ever apply with `\s*` empty, that is, to a
`#` standing exactly at a line start.  The scan below is the operational
translation: a mode records whether the current position is at a line start
(for `^`, which in multiline mode matches after `\n` and `\r`) or inside a
comment match (`.*` does not cross line terminators). -/

/-- Whitespace characters of the regex class `\s` (ASCII portion). -/
def isWS (c : Char) : Bool :=
  c = ' ' ∨ c = '\t' ∨ c = '\n' ∨ c = '\r' ∨ c = '\x0b' ∨ c = '\x0c'

/-- Line terminators recognized by multiline `^` and excluded from `.`. -/
def isLineTerm (c : Char) : Bool :=
  c = '\n' ∨ c = '\r'

/-- Scanner mode for the replace: at a line start, inside a line, or
skipping a matched comment body. -/
inductive Mode
  | lineStart
  | midLine
  | inComment
  deriving DecidableEq, Repr

/-- The global replace of `/\s|^\s*#.*$/gm` by the empty string. -/
def stripScan : Mode → List Char → List Char
  | _, [] => []
  | .inComment, c :: rest =>
    if isLineTerm c then stripScan .lineStart rest
    else stripScan .inComment rest
  | m, c :: rest =>
    if isWS c then stripScan (if isLineTerm c then .lineStart else .midLine) rest
    else if m = .lineStart ∧ c = '#' then stripScan .inComment rest
    else c :: stripScan .midLine rest

/-- JS `String.trim`: drop leading and trailing whitespace. -/
def trim (s : List Char) : List Char :=
  ((s.dropWhile isWS).reverse.dropWhile isWS).reverse

/-- The cache fingerprint: `text.trim().replace(/\s|^\s*#.*$/gm, '')`. -/
def textFingerprint (s : List Char) : List Char :=
  stripScan .lineStart (trim s)

/-- Split a string at line terminators (terminators removed). -/
def splitLines : List Char → List (List Char)
  | [] => [[]]
  | c :: r =>
    if isLineTerm c then [] :: splitLines r
    else
      match splitLines r with
      | [] => [[c]]
      | l :: ls => (c :: l) :: ls

/-- Spec-side description of one line of the fingerprint: a line whose first
character is `#` is dropped whole, any other line keeps its non-whitespace
characters. -/
def perLine (l : List Char) : List Char :=
  if l.head? = some '#' then [] else l.filter (fun c => !(isWS c))

/-- Spec-side restatement of the fingerprint for comparison: trim, split into
lines, strip `#`-initial lines whole and whitespace everywhere, rejoin. -/
def specFingerprint (s : List Char) : List Char :=
  ((splitLines (trim s)).map perLine).flatten

/-! ## Result cache (`RotaryBuffer`)

Modelled from the spec: the class `RotaryBuffer` lives in `src/utils`, which
is not part of the given sources (the dependency view only constructs
`new RotaryBuffer(5)` and calls `get`/`push`).  Per the spec: "`get(predicate)`
returns the most-recently-pushed entry matching predicate, else undefined;
`push(entry)` appends, evicting the oldest entry once capacity (default 5) is
exceeded", FIFO, no promotion on hit. -/

/-- Modelled from the spec: fixed-capacity FIFO ring buffer, oldest first. -/
structure RotaryBuffer (α : Type) where
  cap : Nat
  data : List α
  deriving Repr

/-- Modelled from the spec: a fresh empty buffer of the given capacity. -/
def RotaryBuffer.empty (α : Type) (cap : Nat) : RotaryBuffer α := ⟨cap, []⟩

/-- Modelled from the spec: append an entry, evicting the oldest entries
once the capacity is exceeded. -/
def RotaryBuffer.push {α : Type} (b : RotaryBuffer α) (e : α) : RotaryBuffer α :=
  ⟨b.cap,
    if b.cap < (b.data ++ [e]).length then
      (b.data ++ [e]).drop ((b.data ++ [e]).length - b.cap)
    else b.data ++ [e]⟩

/-- Modelled from the spec: the most-recently-pushed entry matching the
predicate, else none. -/
def RotaryBuffer.get {α : Type} (b : RotaryBuffer α) (p : α → Bool) : Option α :=
  b.data.reverse.find? p

/-- Push a whole list of entries, oldest first. -/
def RotaryBuffer.pushAll {α : Type} (b : RotaryBuffer α) (es : List α) : RotaryBuffer α :=
  es.foldl RotaryBuffer.push b

/-! ## Dependency view refresh (`FlowrDependencyTreeView.refresh`)

```ts
private async refresh() {
  if(this.working) { return; }
  if(vscode.window.activeTextEditor?.document.languageId !== 'r') { return; }
  const text = this.textFingerprint(...document.getText());
  if(text === this.lastText) { return; } else { this.lastText = text ?? ''; }
  this.working = true;
  try {
    const has = this.textBuffer.get(e => e?.[0] === text);
    if(has) { ...use cached...; return; }
    await ...getDependenciesForActiveFile().then(res => {
      if(res === 'error') { if(keepOnError) return; else ...reset...; return; }
      ...; this.textBuffer.push([text, res]); ...
    })
  } finally { this.working = false; ... }
}
```

One call of `refresh` runs atomically here (C7 models the interleaving);
`query = none` models `getDependenciesForActiveFile` returning `'error'` (or
the promise rejecting), `query = some res` a successful round trip. -/

/-- The active editor document: language id and full text. -/
structure Doc where
  languageId : List Char
  text : List Char
  deriving DecidableEq, Repr

/-- The language id `'r'`. -/
def rLang : List Char := ['r']

/-- Mutable state of `FlowrDependencyTreeView` used by `refresh`. -/
structure DVState (Res : Type) where
  working : Bool
  lastText : List Char
  textBuffer : RotaryBuffer (List Char × Res)
  activeDependencies : Res

/-- How one `refresh` call returned. -/
inductive ROutcome
  | droppedWorking
  | notR
  | shortCircuit
  | cacheHit
  | queried
  | queryFailed
  deriving DecidableEq, Repr

/-- Observable actions of one `refresh` call, in program order. -/
inductive REvent
  | setLastText
  | cacheLookup
  | remoteQuery
  deriving DecidableEq, Repr

/-- One `refresh` call: `doc` is the active editor's document (if any),
`query` the outcome the remote session would deliver, `keepOnError` the
`dependencyView.keepOnError` configuration (default `true`). -/
def refresh {Res : Type} [Inhabited Res] (s : DVState Res) (doc : Option Doc)
    (query : Option Res) (keepOnError : Bool) :
    DVState Res × ROutcome × List REvent :=
  if s.working then (s, .droppedWorking, [])
  else
    match doc with
    | none => (s, .notR, [])
    | some d =>
      if d.languageId ≠ rLang then (s, .notR, [])
      else
        let text := textFingerprint d.text
        if text = s.lastText then (s, .shortCircuit, [])
        else
          let s1 := { s with lastText := text, working := true }
          match s1.textBuffer.get (fun e => decide (e.1 = text)) with
          | some hit =>
            ({ s1 with activeDependencies := hit.2, working := false },
              .cacheHit, [.setLastText, .cacheLookup])
          | none =>
            match query with
            | some res =>
              ({ s1 with
                  activeDependencies := res
                  textBuffer := s1.textBuffer.push (text, res)
                  working := false },
                .queried, [.setLastText, .cacheLookup, .remoteQuery])
            | none =>
              (if keepOnError then { s1 with working := false }
                else { s1 with activeDependencies := default, working := false },
                .queryFailed, [.setLastText, .cacheLookup, .remoteQuery])

/-! ## Refresh re-entrancy (the `working` guard)

The event loop is single threaded; `refresh` suspends only inside the
`try` block (after `working = true`), so a competing `refresh` call observes
either `working = false` before any call is in flight, or `working = true`
while one is.  The labelled transition system below has exactly the
transitions the code admits: a call arriving while one is in flight returns
immediately at the guard; a call that passes all checks sets the guard and is
in flight; a finishing call clears the guard in its `finally`. -/

/-- Guard state and number of in-flight `refresh` executions. -/
structure VState where
  working : Bool
  inFlight : Nat
  deriving DecidableEq, Repr

/-- Transitions of the refresh path. -/
inductive VStep : VState → VState → Prop
  /-- a call arrives while one is in flight: dropped at the guard -/
  | dropped (s : VState) : s.working = true → VStep s s
  /-- a call returns synchronously before setting the guard
  (wrong language, identical fingerprint) -/
  | earlyReturn (s : VState) : s.working = false → VStep s s
  /-- a call passes the checks, sets the guard and suspends -/
  | enter (s : VState) : s.working = false → VStep s ⟨true, s.inFlight + 1⟩
  /-- an in-flight call finishes; its `finally` clears the guard -/
  | finish (s : VState) : 0 < s.inFlight → VStep s ⟨false, s.inFlight - 1⟩

/-- States reachable from the initial state (guard clear, nothing in
flight). -/
def VReachable (s : VState) : Prop :=
  Relation.ReflTransGen VStep ⟨false, 0⟩ s

end Flowr

open Flowr

/-! ## Helper lemmas -/

/-- Unfolding lemma: `processFrom` iterates exactly the `handleResponse`
step. -/
theorem processFrom_cons (buf c : List Char) (cs : List (List Char)) :
    processFrom buf (c :: cs) =
      match handleResponse buf c with
      | (b, none) => processFrom b cs
      | (b, some e) => ((processFrom b cs).1, e :: (processFrom b cs).2) := by
  by_cases h : c.getLast? = some '\n' <;> simp [processFrom, handleResponse, h]

theorem processFrom_append (buf : List Char) (xs ys : List (List Char)) :
    processFrom buf (xs ++ ys) =
      ((processFrom (processFrom buf xs).1 ys).1,
        (processFrom buf xs).2 ++ (processFrom (processFrom buf xs).1 ys).2) := by
  induction xs generalizing buf with
  | nil => simp [processFrom]
  | cons c cs ih =>
    simp only [List.cons_append, processFrom]
    by_cases h : c.getLast? = some '\n'
    · simp [h, ih]
    · simp [h, ih (buf ++ c)]

theorem processFrom_all_empty (buf : List Char) (cs : List (List Char))
    (h : ∀ c ∈ cs, c = []) : processFrom buf cs = (buf, []) := by
  induction cs with
  | nil => rfl
  | cons c cs ih =>
    have hc : c = [] := h c (by simp)
    subst hc
    simp only [processFrom, List.getLast?_nil, List.append_nil]
    rw [if_neg (by simp)]
    exact ih (fun c hc => h c (by simp [hc]))

theorem getLast?_ne_newline {c : List Char} (h : '\n' ∉ c) :
    c.getLast? ≠ some '\n' := by
  intro hlast
  cases c with
  | nil => simp at hlast
  | cons a as =>
    have hne : (a :: as) ≠ [] := by simp
    rw [List.getLast?_eq_getLast _ hne] at hlast
    have heq : (a :: as).getLast hne = '\n' := by
      injection hlast
    exact h (heq ▸ List.getLast_mem hne)

/-- Feeding any split of one wire frame (whose content holds no terminator)
from buffer `buf` emits exactly the frame prefixed by the pending buffer, and
leaves the buffer empty. -/
theorem processFrom_one_frame (f : List Char) (hf : '\n' ∉ f)
    (chunks : List (List Char)) (buf : List Char)
    (hsplit : chunks.flatten = wire f) :
    processFrom buf chunks = ([], [buf ++ wire f]) := by
  induction chunks generalizing f buf with
  | nil =>
    exfalso
    simp [wire] at hsplit
  | cons c cs ih =>
    simp only [List.flatten_cons] at hsplit
    cases hrest : cs.flatten with
    | nil =>
      rw [hrest, List.append_nil] at hsplit
      subst hsplit
      simp only [processFrom, wire]
      rw [if_pos (by simp)]
      rw [processFrom_all_empty [] cs (List.flatten_eq_nil_iff.mp hrest)]
    | cons d ds =>
      -- the chunk `c` is an initial part of the frame content
      have hsplit' : c ++ cs.flatten = f ++ ['\n'] := hsplit
      have hgood : ∃ a, f = c ++ a ∧ cs.flatten = a ++ ['\n'] := by
        rcases List.append_eq_append_iff.mp hsplit' with ⟨a, ha1, ha2⟩ | ⟨a, ha1, ha2⟩
        · exact ⟨a, ha1, ha2⟩
        · cases a with
          | nil =>
            have hcf : c = f := by simpa using ha1
            exact ⟨[], by simp [hcf], by simpa using ha2.symm⟩
          | cons x xs =>
            exfalso
            have hx := ha2
            simp only [List.cons_append] at hx
            have h2 : ([] : List Char) = xs ++ cs.flatten := by
              injection hx with _ h2
            rw [hrest] at h2
            simp at h2
      rcases hgood with ⟨a, ha1, ha2⟩
      have hcf : '\n' ∉ c := fun hm => hf (ha1 ▸ List.mem_append_left a hm)
      have hca : '\n' ∉ a := fun hm => hf (ha1 ▸ List.mem_append_right c hm)
      simp only [processFrom]
      rw [if_neg (getLast?_ne_newline hcf)]
      rw [ih a hca (buf ++ c) ha2]
      simp [wire, ha1]

/-- Feeding a concatenation of per-frame splits from a fresh channel emits
exactly the wire frames, in order. -/
theorem processChunks_frame_aligned (frames : List (List Char))
    (splits : List (List (List Char)))
    (hnl : ∀ f ∈ frames, '\n' ∉ f)
    (hsp : List.Forall₂ (fun chs f => chs.flatten = wire f) splits frames) :
    processFrom [] splits.flatten = ([], frames.map wire) := by
  induction hsp with
  | nil => rfl
  | @cons chs f splits' frames' hhead _ ih =>
    have hnlf : '\n' ∉ f := hnl f (by simp)
    have hone := processFrom_one_frame f hnlf chs [] hhead
    rw [List.flatten_cons, processFrom_append, hone]
    have ih' := ih (fun g hg => hnl g (by simp [hg]))
    simp [ih']

/-! ## Claim theorems -/

/-- C1 counterexample: the claim compares feeding an arbitrary byte-chunk
split of a multi-frame transmission with feeding each frame unsplit.  It
fails when one chunk spans two frames: `handleResponse` emits the whole
accumulated buffer as a single message as soon as a chunk ends with the
terminator, so the two frames arriving as the single merged chunk are emitted
as one concatenated message, not as two frames. -/
theorem c1_counterexample :
    List.flatten [['a','\n','b','\n']] = List.flatten [['a','\n'], ['b','\n']] ∧
    Flowr.processChunks [['a','\n','b','\n']] ≠
      Flowr.processChunks [['a','\n'], ['b','\n']] := by
  constructor
  · rfl
  · decide

/-- C1 (amended): for every split of a newline-terminated multi-frame
transmission into byte chunks in which no chunk spans two frames (each
frame's wire bytes are split into consecutive chunks), feeding the chunks to
the channel's frame reassembly emits exactly the same ordered sequence of
complete frames as feeding each frame unsplit, namely the frames themselves:
a frame is emitted only once the accumulated buffer ends with the terminator,
and until then all received bytes are buffered with no frame emitted. -/
theorem c1_fragmentation_invariance (frames : List (List Char))
    (splits : List (List (List Char)))
    (hnl : ∀ f ∈ frames, '\n' ∉ f)
    (hsp : List.Forall₂ (fun chs f => chs.flatten = Flowr.wire f) splits frames) :
    Flowr.processChunks splits.flatten =
        Flowr.processChunks (frames.map Flowr.wire) ∧
    Flowr.processChunks (frames.map Flowr.wire) = frames.map Flowr.wire := by
  have hunsplit : ∀ fs : List (List Char),
      List.Forall₂ (fun chs f => List.flatten chs = Flowr.wire f)
        (fs.map (fun f => [Flowr.wire f])) fs := by
    intro fs
    induction fs with
    | nil => exact .nil
    | cons f fs ih => exact .cons (by simp) ih
  have hflat : ∀ fs : List (List Char),
      (fs.map (fun f => [Flowr.wire f])).flatten = fs.map Flowr.wire := by
    intro fs
    induction fs with
    | nil => rfl
    | cons f fs ih => simp [ih]
  have h1 := processChunks_frame_aligned frames splits hnl hsp
  have h2 := processChunks_frame_aligned frames _ hnl (hunsplit frames)
  rw [hflat frames] at h2
  constructor
  · simp [Flowr.processChunks, h1, h2]
  · simp [Flowr.processChunks, h2]

/-- Witness for C1 (amended): the two frames sent as the chunks
`"a"`, `"b\n"`, `"c\n"` (no chunk spans two frames) are emitted exactly as
when fed unsplit. -/
theorem c1_witness :
    Flowr.processChunks [['a'],['b','\n'],['c','\n']] =
      Flowr.processChunks [['a','b','\n'], ['c','\n']] ∧
    Flowr.processChunks [['a','b','\n'], ['c','\n']] = [['a','b','\n'], ['c','\n']] := by
  have h := c1_fragmentation_invariance [['a','b'],['c']]
    [[['a'],['b','\n']],[['c','\n']]]
    (by decide) (.cons (by decide) (.cons (by decide) .nil))
  simpa [Flowr.wire] using h

/-- One session step preserves "promise `i` is pending and not the current
waiter". -/
theorem stepS_preserves_superseded (t : SessState) (i : Nat) (e : SEv)
    (h1 : t.promises[i]? = some .pending) (h2 : t.waiter ≠ some i) :
    (stepS t e).promises[i]? = some PState.pending ∧ (stepS t e).waiter ≠ some i := by
  have hlen : i < t.promises.length := by
    by_contra hge
    rw [List.getElem?_eq_none (by omega)] at h1
    exact Option.noConfusion h1
  cases e with
  | awaitResponse =>
    refine ⟨?_, ?_⟩
    · simpa [stepS, List.getElem?_append_left hlen] using h1
    · simp only [stepS]
      intro hc
      have : t.promises.length = i := by simpa using hc
      omega
  | data chunk =>
    by_cases hd : t.destroyed
    · simpa [stepS, hd] using ⟨h1, h2⟩
    · by_cases hterm : chunk.getLast? = some '\n'
      · refine ⟨?_, ?_⟩
        · simp only [stepS, hd, hterm, if_false, if_true, Bool.false_eq_true]
          cases hw : t.waiter with
          | none => simpa [hw] using h1
          | some j =>
            have hji : j ≠ i := fun hji => h2 (by rw [hw, hji])
            simpa [hw, List.getElem?_set_ne hji] using h1
        · simp [stepS, hd, hterm]
      · simpa [stepS, hd, hterm] using ⟨h1, h2⟩
  | destroy => simpa [stepS] using ⟨h1, h2⟩
  | send cmd => simpa [stepS] using ⟨h1, h2⟩

/-- A pending promise that is no longer the registered waiter stays pending
under every sequence of session events. -/
theorem runS_preserves_superseded (t : SessState) (i : Nat) (evs : List SEv)
    (h1 : t.promises[i]? = some .pending) (h2 : t.waiter ≠ some i) :
    (runS t evs).promises[i]? = some PState.pending := by
  induction evs generalizing t with
  | nil => exact h1
  | cons e evs ih =>
    have hstep := stepS_preserves_superseded t i e h1 h2
    exact ih (stepS t e) hstep.1 hstep.2

/-- C8: registering a new one-shot waiter via `awaitResponse` while a
previous waiter is pending silently drops the previous waiter: its promise
stays pending under every subsequent event sequence (so it never resolves and
is not rejected with a "superseded" error — `pending` excludes both `resolved`
and `rejected`). -/
theorem c8_superseded_waiter_dropped (s : SessState) (evs : List SEv) :
    (runS (stepS (stepS s .awaitResponse) .awaitResponse) evs).promises[s.promises.length]? =
      some PState.pending := by
  apply runS_preserves_superseded
  · have hlen : s.promises.length < (stepS s .awaitResponse).promises.length := by
      simp [stepS]
    rw [show stepS (stepS s .awaitResponse) .awaitResponse =
        { stepS s .awaitResponse with
            promises := (stepS s .awaitResponse).promises ++ [.pending]
            waiter := some (stepS s .awaitResponse).promises.length } from rfl]
    rw [List.getElem?_append_left hlen]
    simp [stepS, List.getElem?_concat_length]
  · simp only [stepS]
    intro hc
    simp at hc

/-- C2 counterexample: a request is outstanding (one pending future from
`awaitResponse`) and the session is destroyed; the future is still pending —
`destroy()` only destroys the socket and rejects nothing, contradicting the
claim that the future fails with a "connection closed" error by teardown. -/
theorem c2_counterexample :
    (runS Flowr.initSess [SEv.awaitResponse, SEv.destroy]).promises =
      [PState.pending] := rfl

/-- C2 (amended): if the channel closes while a request is outstanding, the
future never fails and never resolves — it stays pending forever: after
`destroy()` a pending promise remains pending under every sequence of
session events (a destroyed socket emits no further data). -/
theorem c2_pending_forever_after_destroy (t : SessState) (i : Nat) (evs : List SEv)
    (h1 : t.promises[i]? = some .pending) (h2 : t.destroyed = true) :
    (runS t evs).promises[i]? = some PState.pending := by
  induction evs generalizing t with
  | nil => exact h1
  | cons e evs ih =>
    have hlen : i < t.promises.length := by
      by_contra hge
      rw [List.getElem?_eq_none (by omega)] at h1
      exact Option.noConfusion h1
    have hstep : (stepS t e).promises[i]? = some PState.pending ∧
        (stepS t e).destroyed = true := by
      cases e with
      | awaitResponse =>
        constructor
        · simpa [stepS, List.getElem?_append_left hlen] using h1
        · simpa [stepS] using h2
      | data chunk => exact ⟨by simp [stepS, h2, h1], by simp [stepS, h2]⟩
      | destroy => exact ⟨by simpa [stepS] using h1, by simp [stepS]⟩
      | send cmd => exact ⟨by simpa [stepS] using h1, by simpa [stepS] using h2⟩
    exact ih (stepS t e) hstep.1 hstep.2

/-- Witness for C2 (amended): the concrete post-destroy session with one
outstanding future; even after further socket data and a new `awaitResponse`,
the future is still pending. -/
theorem c2_witness :
    (runS ⟨[PState.pending], some 0, [], true⟩
      [SEv.data ['x','\n'], SEv.awaitResponse, SEv.send ['q']]).promises[0]? =
      some PState.pending :=
  c2_pending_forever_after_destroy ⟨[PState.pending], some 0, [], true⟩ 0
    [SEv.data ['x','\n'], SEv.awaitResponse, SEv.send ['q']] rfl rfl

/-- C9: destroying twice has the same observable effect as destroying once.
On the session, `destroy` (= `socket.destroy()`) is idempotent and marks the
channel released; on the module level, the second `destroySession` call finds
the handle cleared and issues no second `destroy` (no double-release
fault), leaving the module state unchanged. -/
theorem c9_destroy_idempotent :
    (∀ s : SessState, stepS (stepS s .destroy) .destroy = stepS s .destroy) ∧
    (∀ s : SessState, (stepS s .destroy).destroyed = true) ∧
    (∀ m : ModuleState,
      destroySession (destroySession m).1 = (⟨none⟩, none, []) ∧
      (destroySession (destroySession m).1).1 = (destroySession m).1) := by
  refine ⟨fun s => rfl, fun s => rfl, fun m => ?_⟩
  cases m with
  | mk fs => cases fs <;> exact ⟨rfl, rfl⟩

/-- Generic association-list fact: a successful `lookup` comes from a member
pair. -/
theorem lookup_mem {α β : Type} [BEq α] [LawfulBEq α] (l : List (α × β)) (i : α) (v : β)
    (h : l.lookup i = some v) : (i, v) ∈ l := by
  induction l with
  | nil => simp [List.lookup] at h
  | cons p rest ih =>
    cases p with
    | mk a b =>
      rw [List.lookup] at h
      cases he : i == a with
      | true =>
        simp only [he] at h
        have ha : a = i := (eq_of_beq he).symm
        have hb : b = v := by injection h
        subst ha
        subst hb
        exact List.mem_cons_self _ _
      | false =>
        simp only [he] at h
        exact List.Mem.tail _ (ih h)

/-- The pre-sort list of `retrieveSlice` as one `filterMap`. -/
theorem sliceBase_eq (S : List NodeId) (m : NodeId → Option Flowr.SourceRange) :
    ((S.map (fun i => (i, m i))).filterMap
        (fun p : NodeId × Option Flowr.SourceRange => match p with
          | (i, some l) => some (i, l)
          | (_, none) => none)) =
      S.filterMap (fun i => (m i).map (fun l => (i, l))) := by
  induction S with
  | nil => rfl
  | cons i S ih =>
    simp only [List.map_cons, List.filterMap_cons]
    cases m i <;> simp [ih]

/-- The identifiers of the pre-sort list form a sublist of the slice result. -/
theorem sliceBase_fst_sublist (S : List NodeId) (m : NodeId → Option Flowr.SourceRange) :
    ((S.filterMap (fun i => (m i).map (fun l => (i, l)))).map Prod.fst).Sublist S := by
  induction S with
  | nil => simp
  | cons i S ih =>
    rw [List.filterMap_cons]
    cases m i with
    | none => exact ih.cons i
    | some l => simpa using ih.cons₂ i

/-- C3: for a slice result set `S` (the remote slicer returns a set, so `S`
has no duplicates) and the location map built by visiting the AST,
`retrieveSlice` produces exactly the pairs `(id, M id)` for the identifiers
of `S` present in `M`, each identifier exactly once, sorted ascending by
(start line, start column); identifiers absent from `M` are dropped, and the
map records only nodes carrying a location. -/
theorem c3_slice_reconciliation (ast : List RNode) (S : List NodeId) (hnd : S.Nodup) :
    (∀ p : NodeId × Flowr.SourceRange,
        p ∈ sliceElements S (buildLocationMap ast) ↔
          p.1 ∈ S ∧ buildLocationMap ast p.1 = some p.2) ∧
    ((sliceElements S (buildLocationMap ast)).map Prod.fst).Nodup ∧
    (sliceElements S (buildLocationMap ast)).Sorted sliceLE ∧
    (∀ i l, buildLocationMap ast i = some l →
      ∃ n ∈ ast, n.id = i ∧ n.location = some l) := by
  have hperm : List.Perm (sliceElements S (buildLocationMap ast))
      (S.filterMap (fun i => (buildLocationMap ast i).map (fun l => (i, l)))) := by
    unfold sliceElements
    rw [sliceBase_eq]
    exact List.perm_insertionSort sliceLE _
  refine ⟨?_, ?_, ?_, ?_⟩
  · intro p
    rw [hperm.mem_iff]
    simp only [List.mem_filterMap, Option.map_eq_some']
    constructor
    · rintro ⟨i, hi, l, hl, heq⟩
      cases heq
      exact ⟨hi, hl⟩
    · rintro ⟨hi, hl⟩
      exact ⟨p.1, hi, p.2, hl, rfl⟩
  · have hsub := sliceBase_fst_sublist S (buildLocationMap ast)
    have hnd' := hnd.sublist hsub
    exact ((hperm.map Prod.fst).nodup_iff).mpr hnd'
  · unfold sliceElements
    rw [sliceBase_eq]
    exact List.sorted_insertionSort sliceLE _
  · intro i l hl
    unfold buildLocationMap at hl
    have hmem := lookup_mem _ _ _ hl
    rw [List.mem_reverse] at hmem
    rcases List.mem_filterMap.mp hmem with ⟨n, hn, hopt⟩
    rcases Option.map_eq_some'.mp hopt with ⟨l', hl', heq⟩
    cases heq
    exact ⟨n, hn, rfl, hl'⟩

/-- Witness for C3: the spec's end-to-end scenario — slice result
`{n3, n1, n2}` where `n1 ↦ (1,1)-(1,6)`, `n2 ↦ (2,1)-(2,11)` and `n3` has no
location; the reconciled output is exactly `[(n1, ..), (n2, ..)]` in that
order. -/
theorem c3_witness :
    ([3, 1, 2] : List NodeId).Nodup ∧
    ((∀ p : NodeId × Flowr.SourceRange,
        p ∈ sliceElements [3, 1, 2]
            (buildLocationMap
              [⟨1, some ⟨⟨1,1⟩,⟨1,6⟩⟩⟩, ⟨2, some ⟨⟨2,1⟩,⟨2,11⟩⟩⟩, ⟨3, none⟩]) ↔
          p.1 ∈ ([3, 1, 2] : List NodeId) ∧
          buildLocationMap
              [⟨1, some ⟨⟨1,1⟩,⟨1,6⟩⟩⟩, ⟨2, some ⟨⟨2,1⟩,⟨2,11⟩⟩⟩, ⟨3, none⟩] p.1 =
            some p.2) ∧
    ((sliceElements [3, 1, 2]
        (buildLocationMap
          [⟨1, some ⟨⟨1,1⟩,⟨1,6⟩⟩⟩, ⟨2, some ⟨⟨2,1⟩,⟨2,11⟩⟩⟩, ⟨3, none⟩])).map
        Prod.fst).Nodup ∧
    (sliceElements [3, 1, 2]
        (buildLocationMap
          [⟨1, some ⟨⟨1,1⟩,⟨1,6⟩⟩⟩, ⟨2, some ⟨⟨2,1⟩,⟨2,11⟩⟩⟩, ⟨3, none⟩])).Sorted
        sliceLE ∧
    (∀ i l, buildLocationMap
          [⟨1, some ⟨⟨1,1⟩,⟨1,6⟩⟩⟩, ⟨2, some ⟨⟨2,1⟩,⟨2,11⟩⟩⟩, ⟨3, none⟩] i = some l →
      ∃ n ∈ [⟨1, some ⟨⟨1,1⟩,⟨1,6⟩⟩⟩, ⟨2, some ⟨⟨2,1⟩,⟨2,11⟩⟩⟩,
          (⟨3, none⟩ : RNode)], n.id = i ∧ n.location = some l)) :=
  ⟨by decide,
    c3_slice_reconciliation
      [⟨1, some ⟨⟨1,1⟩,⟨1,6⟩⟩⟩, ⟨2, some ⟨⟨2,1⟩,⟨2,11⟩⟩⟩, ⟨3, none⟩]
      [3, 1, 2] (by decide)⟩

/-- The data of one push, uniformly: append then drop the overflow. -/
theorem rotary_push_data {α : Type} (b : RotaryBuffer α) (e : α) :
    (b.push e).data = (b.data ++ [e]).drop ((b.data.length + 1) - b.cap) := by
  unfold RotaryBuffer.push
  simp only [List.length_append, List.length_singleton]
  by_cases h : b.cap < b.data.length + 1
  · rw [if_pos h]
  · rw [if_neg h, show b.data.length + 1 - b.cap = 0 by omega, List.drop_zero]

theorem rotary_push_cap {α : Type} (b : RotaryBuffer α) (e : α) :
    (b.push e).cap = b.cap := rfl

/-- Pushing a list into a buffer within capacity: the result is the suffix
of the concatenation that fits. -/
theorem rotary_pushAll_data {α : Type} (es : List α) (b : RotaryBuffer α)
    (hinv : b.data.length ≤ b.cap) :
    (b.pushAll es).data = (b.data ++ es).drop ((b.data.length + es.length) - b.cap) := by
  induction es generalizing b with
  | nil =>
    simp only [RotaryBuffer.pushAll, List.foldl_nil, List.append_nil, List.length_nil,
      Nat.add_zero]
    rw [Nat.sub_eq_zero_of_le hinv, List.drop_zero]
  | cons e es ih =>
    have hstep : (b.push e).data = (b.data ++ [e]).drop ((b.data.length + 1) - b.cap) :=
      rotary_push_data b e
    have hlen : (b.push e).data.length = (b.data.length + 1) - ((b.data.length + 1) - b.cap) := by
      rw [hstep, List.length_drop, List.length_append, List.length_singleton]
    have hinv' : (b.push e).data.length ≤ (b.push e).cap := by
      rw [hlen, rotary_push_cap]
      omega
    have hrec := ih (b.push e) hinv'
    rw [show (b.pushAll (e :: es)) = ((b.push e).pushAll es) from rfl, hrec,
      rotary_push_cap, hstep]
    rw [← List.drop_append_of_le_length
      (show b.data.length + 1 - b.cap ≤ (b.data ++ [e]).length from by
        simp only [List.length_append, List.length_singleton]
        omega)]
    rw [List.drop_drop, List.append_assoc, List.singleton_append]
    congr 1
    simp only [List.length_drop, List.length_append, List.length_singleton, List.length_cons,
      List.length_nil]
    omega

/-- C5: pushing `capacity+1` distinct entries into the empty fixed-capacity
ring buffer leaves exactly `capacity` entries — precisely the last
`capacity` pushed, in order, with the first pushed entry absent (FIFO
eviction of the oldest). -/
theorem c5_fifo_eviction {α : Type} [DecidableEq α] (c : Nat) (es : List α)
    (hlen : es.length = c + 1) (hnd : es.Nodup) :
    ((RotaryBuffer.empty α c).pushAll es).data = es.tail ∧
    ((RotaryBuffer.empty α c).pushAll es).data.length = c ∧
    (∀ a, es.head? = some a → a ∉ ((RotaryBuffer.empty α c).pushAll es).data) ∧
    (∀ x ∈ es.tail, x ∈ ((RotaryBuffer.empty α c).pushAll es).data) := by
  have hdata : ((RotaryBuffer.empty α c).pushAll es).data = es.tail := by
    rw [rotary_pushAll_data es (RotaryBuffer.empty α c) (by simp [RotaryBuffer.empty])]
    simp only [RotaryBuffer.empty, List.nil_append, List.length_nil, Nat.zero_add, hlen]
    rw [show c + 1 - c = 1 by omega, List.drop_one]
  refine ⟨hdata, ?_, ?_, ?_⟩
  · rw [hdata, List.length_tail, hlen]
    omega
  · intro a ha
    rw [hdata]
    cases es with
    | nil => simp at ha
    | cons x xs =>
      have hax : x = a := by simpa using ha
      subst hax
      simpa using (List.nodup_cons.mp hnd).1
  · intro x hx
    rw [hdata]
    exact hx

/-- Witness for C5: default capacity 5, six distinct entries; the first is
evicted and exactly the last five remain, in push order. -/
theorem c5_witness :
    ([0, 1, 2, 3, 4, 5] : List Nat).length = 5 + 1 ∧
    ([0, 1, 2, 3, 4, 5] : List Nat).Nodup ∧
    (((RotaryBuffer.empty Nat 5).pushAll [0, 1, 2, 3, 4, 5]).data = [1, 2, 3, 4, 5] ∧
      ((RotaryBuffer.empty Nat 5).pushAll [0, 1, 2, 3, 4, 5]).data.length = 5 ∧
      (∀ a, ([0, 1, 2, 3, 4, 5] : List Nat).head? = some a →
        a ∉ ((RotaryBuffer.empty Nat 5).pushAll [0, 1, 2, 3, 4, 5]).data) ∧
      (∀ x ∈ ([0, 1, 2, 3, 4, 5] : List Nat).tail,
        x ∈ ((RotaryBuffer.empty Nat 5).pushAll [0, 1, 2, 3, 4, 5]).data)) :=
  ⟨rfl, by decide, c5_fifo_eviction 5 [0, 1, 2, 3, 4, 5] rfl (by decide)⟩

theorem lineTerm_ws {c : Char} (h : isLineTerm c = true) : isWS c = true := by
  simp only [isLineTerm, decide_eq_true_eq] at h
  rcases h with h | h <;> subst h <;> rfl

theorem ws_ne_hash {c : Char} (h : isWS c = true) : c ≠ '#' := by
  simp only [isWS, decide_eq_true_eq] at h
  rcases h with h | h | h | h | h | h <;> subst h <;> decide

theorem splitLines_ne_nil (s : List Char) : splitLines s ≠ [] := by
  cases s with
  | nil => simp [splitLines]
  | cons c r =>
    by_cases h : isLineTerm c
    · simp [splitLines, h]
    · cases hr : splitLines r <;> simp [splitLines, h, hr]

theorem splitLines_cons_term {c : Char} {r : List Char} (h : isLineTerm c = true) :
    splitLines (c :: r) = [] :: splitLines r := by
  simp [splitLines, h]

theorem splitLines_cons_nterm {c : Char} {r l : List Char} {ls : List (List Char)}
    (h : isLineTerm c = false) (hsp : splitLines r = l :: ls) :
    splitLines (c :: r) = (c :: l) :: ls := by
  simp [splitLines, h, hsp]

theorem stripScan_inComment_cons (c : Char) (r : List Char) :
    stripScan .inComment (c :: r) =
      if isLineTerm c then stripScan .lineStart r else stripScan .inComment r := rfl

theorem stripScan_lineStart_cons (c : Char) (r : List Char) :
    stripScan .lineStart (c :: r) =
      if isWS c then stripScan (if isLineTerm c then .lineStart else .midLine) r
      else if c = '#' then stripScan .inComment r
      else c :: stripScan .midLine r := by
  show (if isWS c then stripScan (if isLineTerm c then .lineStart else .midLine) r
      else if Mode.lineStart = Mode.lineStart ∧ c = '#' then stripScan .inComment r
      else c :: stripScan .midLine r) = _
  by_cases hws : isWS c
  · simp [hws]
  · simp [hws]

theorem stripScan_midLine_cons (c : Char) (r : List Char) :
    stripScan .midLine (c :: r) =
      if isWS c then stripScan (if isLineTerm c then .lineStart else .midLine) r
      else c :: stripScan .midLine r := by
  show (if isWS c then stripScan (if isLineTerm c then .lineStart else .midLine) r
      else if Mode.midLine = Mode.lineStart ∧ c = '#' then stripScan .inComment r
      else c :: stripScan .midLine r) = _
  by_cases hws : isWS c
  · simp [hws]
  · simp [hws]

/-- Joint per-line characterization of the scanner: started at a line start
it computes the per-line normalization of the whole input; started mid-line
(or inside a comment) the first line is treated accordingly. -/
theorem stripScan_lines (s : List Char) :
    stripScan .lineStart s = ((splitLines s).map perLine).flatten ∧
    (∀ l ls, splitLines s = l :: ls →
      stripScan .midLine s =
          l.filter (fun c => !(isWS c)) ++ ((ls.map perLine).flatten) ∧
      stripScan .inComment s = (ls.map perLine).flatten) := by
  induction s with
  | nil =>
    refine ⟨by simp [stripScan, splitLines, perLine], ?_⟩
    intro l ls hsp
    simp only [splitLines] at hsp
    injection hsp with h1 h2
    subst h1
    subst h2
    simp [stripScan]
  | cons c rest ih =>
    obtain ⟨ihA, ihBC⟩ := ih
    obtain ⟨l, ls, hsp⟩ : ∃ l ls, splitLines rest = l :: ls := by
      cases h : splitLines rest with
      | nil => exact absurd h (splitLines_ne_nil rest)
      | cons l ls => exact ⟨l, ls, rfl⟩
    obtain ⟨ihB, ihC⟩ := ihBC l ls hsp
    by_cases hws : isWS c = true
    · by_cases hlt : isLineTerm c = true
      · -- a line terminator: drop it, next position is a line start
        have hsp' : splitLines (c :: rest) = [] :: splitLines rest :=
          splitLines_cons_term hlt
        refine ⟨?_, ?_⟩
        · rw [stripScan_lineStart_cons, if_pos hws, if_pos hlt, ihA, hsp']
          simp [perLine]
        · intro l0 ls0 hsp0
          rw [hsp'] at hsp0
          injection hsp0 with h1 h2
          subst h1
          subst h2
          constructor
          · rw [stripScan_midLine_cons, if_pos hws, if_pos hlt, ihA]
            simp
          · rw [stripScan_inComment_cons, if_pos hlt, ihA]
      · -- plain whitespace: drop it, stay in / switch to mid-line
        have hlt' : isLineTerm c = false := by
          cases h : isLineTerm c
          · rfl
          · exact absurd h (by simp [hlt])
        have hsp' : splitLines (c :: rest) = (c :: l) :: ls :=
          splitLines_cons_nterm hlt' hsp
        refine ⟨?_, ?_⟩
        · rw [stripScan_lineStart_cons, if_pos hws, if_neg (by simp [hlt']), ihB, hsp']
          have hper : perLine (c :: l) = l.filter (fun c => !(isWS c)) := by
            rw [perLine, if_neg (by simp [ws_ne_hash hws]), List.filter_cons,
              if_neg (by simp [hws])]
          simp [hper]
        · intro l0 ls0 hsp0
          rw [hsp'] at hsp0
          injection hsp0 with h1 h2
          subst h1
          subst h2
          constructor
          · rw [stripScan_midLine_cons, if_pos hws, if_neg (by simp [hlt']), ihB,
              List.filter_cons, if_neg (by simp [hws])]
          · rw [stripScan_inComment_cons, if_neg (by simp [hlt']), ihC]
    · -- a visible character
      have hlt' : isLineTerm c = false := by
        cases h : isLineTerm c
        · rfl
        · exact absurd (lineTerm_ws h) hws
      have hsp' : splitLines (c :: rest) = (c :: l) :: ls :=
        splitLines_cons_nterm hlt' hsp
      by_cases hhash : c = '#'
      · refine ⟨?_, ?_⟩
        · rw [stripScan_lineStart_cons, if_neg (by simp [hws]), if_pos hhash, ihC, hsp']
          have hper : perLine (c :: l) = [] := by
            rw [perLine, if_pos (by simp [hhash])]
          simp [hper]
        · intro l0 ls0 hsp0
          rw [hsp'] at hsp0
          injection hsp0 with h1 h2
          subst h1
          subst h2
          constructor
          · rw [stripScan_midLine_cons, if_neg (by simp [hws]), ihB,
              List.filter_cons, if_pos (by simp [hws]), List.cons_append]
          · rw [stripScan_inComment_cons, if_neg (by simp [hlt']), ihC]
      · refine ⟨?_, ?_⟩
        · rw [stripScan_lineStart_cons, if_neg (by simp [hws]), if_neg hhash, ihB, hsp']
          have hper : perLine (c :: l) =
              c :: l.filter (fun c => !(isWS c)) := by
            rw [perLine, if_neg (by simp [hhash]), List.filter_cons,
              if_pos (by simp [hws])]
          simp [hper]
        · intro l0 ls0 hsp0
          rw [hsp'] at hsp0
          injection hsp0 with h1 h2
          subst h1
          subst h2
          constructor
          · rw [stripScan_midLine_cons, if_neg (by simp [hws]), ihB,
              List.filter_cons, if_pos (by simp [hws]), List.cons_append]
          · rw [stripScan_inComment_cons, if_neg (by simp [hlt']), ihC]

/-- C6 counterexample: the two texts differ only in the comment line
`" # a"` (an indented comment), yet their fingerprints differ: the ordered
regex alternation consumes the leading space as `\s`, after which the `#` is
no longer at a line start, so the comment body survives (minus whitespace). -/
theorem c6_counterexample :
    Flowr.textFingerprint ['x', '\n', ' ', '#', ' ', 'a'] ≠
      Flowr.textFingerprint ['x'] ∧
    Flowr.textFingerprint ['x', '\n', ' ', '#', ' ', 'a'] = ['x', '#', 'a'] ∧
    Flowr.textFingerprint ['x'] = ['x'] := by
  refine ⟨by decide, by decide, by decide⟩

/-- C6 (amended): the fingerprint equals the trimmed text with every
whitespace character removed and every line whose first character is `#`
(at column 0) dropped whole; comment lines preceded by whitespace keep
their non-whitespace content, so only texts that differ in whitespace or in
column-0 comment lines are guaranteed equal fingerprints. -/
theorem c6_fingerprint_normalization (t : List Char) :
    Flowr.textFingerprint t = Flowr.specFingerprint t :=
  (stripScan_lines (trim t)).1

/-- A call arriving while the guard is set returns unchanged at the guard. -/
theorem refresh_dropped {Res : Type} [Inhabited Res] (s : DVState Res)
    (doc : Option Doc) (q : Option Res) (k : Bool) (h : s.working = true) :
    refresh s doc q k = (s, .droppedWorking, []) := by
  simp [refresh, h]

theorem refresh_no_doc {Res : Type} [Inhabited Res] (s : DVState Res)
    (q : Option Res) (k : Bool) (h : s.working = false) :
    refresh s none q k = (s, .notR, []) := by
  simp [refresh, h]

theorem refresh_wrong_lang {Res : Type} [Inhabited Res] (s : DVState Res) (d : Doc)
    (q : Option Res) (k : Bool) (h : s.working = false) (h2 : d.languageId ≠ rLang) :
    refresh s (some d) q k = (s, .notR, []) := by
  simp [refresh, h, h2]

theorem refresh_short_circuit {Res : Type} [Inhabited Res] (s : DVState Res) (d : Doc)
    (q : Option Res) (k : Bool) (h : s.working = false) (h2 : d.languageId = rLang)
    (h3 : textFingerprint d.text = s.lastText) :
    refresh s (some d) q k = (s, .shortCircuit, []) := by
  simp [refresh, h, h2, h3]

theorem refresh_cache_hit {Res : Type} [Inhabited Res] (s : DVState Res) (d : Doc)
    (q : Option Res) (k : Bool) (hit : List Char × Res)
    (h : s.working = false) (h2 : d.languageId = rLang)
    (h3 : textFingerprint d.text ≠ s.lastText)
    (h5 : s.textBuffer.get (fun e => decide (e.1 = textFingerprint d.text)) = some hit) :
    refresh s (some d) q k =
      ({ s with
          lastText := textFingerprint d.text
          working := false
          activeDependencies := hit.2 },
        .cacheHit, [.setLastText, .cacheLookup]) := by
  simp [refresh, h, h2, h3, h5]

theorem refresh_query_success {Res : Type} [Inhabited Res] (s : DVState Res) (d : Doc)
    (res : Res) (k : Bool)
    (h : s.working = false) (h2 : d.languageId = rLang)
    (h3 : textFingerprint d.text ≠ s.lastText)
    (h5 : s.textBuffer.get (fun e => decide (e.1 = textFingerprint d.text)) = none) :
    refresh s (some d) (some res) k =
      ({ s with
          lastText := textFingerprint d.text
          working := false
          activeDependencies := res
          textBuffer := s.textBuffer.push (textFingerprint d.text, res) },
        .queried, [.setLastText, .cacheLookup, .remoteQuery]) := by
  simp [refresh, h, h2, h3, h5]

theorem refresh_query_error {Res : Type} [Inhabited Res] (s : DVState Res) (d : Doc)
    (k : Bool)
    (h : s.working = false) (h2 : d.languageId = rLang)
    (h3 : textFingerprint d.text ≠ s.lastText)
    (h5 : s.textBuffer.get (fun e => decide (e.1 = textFingerprint d.text)) = none) :
    refresh s (some d) none k =
      ((if k then { s with lastText := textFingerprint d.text, working := false }
        else { s with
            lastText := textFingerprint d.text
            working := false
            activeDependencies := default }),
        .queryFailed, [.setLastText, .cacheLookup, .remoteQuery]) := by
  by_cases hk : k <;> simp [refresh, h, h2, h3, h5, hk]

/-- After any `refresh` call over an R document from an idle state, the guard
is clear again and `lastText` holds the document's fingerprint. -/
theorem refresh_post {Res : Type} [Inhabited Res] (s : DVState Res) (d : Doc)
    (q : Option Res) (k : Bool) (hw : s.working = false) (hl : d.languageId = rLang) :
    (refresh s (some d) q k).1.working = false ∧
    (refresh s (some d) q k).1.lastText = textFingerprint d.text := by
  by_cases h3 : textFingerprint d.text = s.lastText
  · rw [refresh_short_circuit s d q k hw hl h3]
    exact ⟨hw, h3.symm⟩
  · cases h5 : s.textBuffer.get (fun e => decide (e.1 = textFingerprint d.text)) with
    | some hit =>
      rw [refresh_cache_hit s d q k hit hw hl h3 h5]
      exact ⟨rfl, rfl⟩
    | none =>
      cases q with
      | some res =>
        rw [refresh_query_success s d res k hw hl h3 h5]
        exact ⟨rfl, rfl⟩
      | none =>
        rw [refresh_query_error s d k hw hl h3 h5]
        by_cases hk : k <;> simp [hk]

/-- The trace of one `refresh` call holds at most one remote query. -/
theorem refresh_count_query {Res : Type} [Inhabited Res] (s : DVState Res)
    (doc : Option Doc) (q : Option Res) (k : Bool) :
    ((refresh s doc q k).2.2).count REvent.remoteQuery ≤ 1 := by
  by_cases hw : s.working = true
  · rw [refresh_dropped s doc q k hw]
    simp
  · have hw' : s.working = false := by
      cases h : s.working
      · rfl
      · exact absurd h hw
    cases doc with
    | none =>
      rw [refresh_no_doc s q k hw']
      simp
    | some d =>
      by_cases hl : d.languageId = rLang
      · by_cases h3 : textFingerprint d.text = s.lastText
        · rw [refresh_short_circuit s d q k hw' hl h3]
          simp
        · cases h5 : s.textBuffer.get (fun e => decide (e.1 = textFingerprint d.text)) with
          | some hit =>
            rw [refresh_cache_hit s d q k hit hw' hl h3 h5]
            simp [List.count_cons]
          | none =>
            cases q with
            | some res =>
              rw [refresh_query_success s d res k hw' hl h3 h5]
              simp [List.count_cons]
            | none =>
              rw [refresh_query_error s d k hw' hl h3 h5]
              simp [List.count_cons]
      · rw [refresh_wrong_lang s d q k hw' hl]
        simp

/-- C4: two consecutive `refresh` calls over a document whose normalized
text is identical issue at most one remote round trip: the second call
returns at the `lastText` short-circuit with an empty action trace — it
neither consults the ring cache nor the session. -/
theorem c4_second_refresh_short_circuits {Res : Type} [Inhabited Res]
    (s : DVState Res) (d : Doc) (q1 q2 : Option Res) (k1 k2 : Bool)
    (hw : s.working = false) (hl : d.languageId = rLang) :
    (refresh (refresh s (some d) q1 k1).1 (some d) q2 k2).2.1 =
        ROutcome.shortCircuit ∧
    (refresh (refresh s (some d) q1 k1).1 (some d) q2 k2).2.2 = [] ∧
    ((refresh s (some d) q1 k1).2.2 ++
        (refresh (refresh s (some d) q1 k1).1 (some d) q2 k2).2.2).count
        REvent.remoteQuery ≤ 1 := by
  obtain ⟨hpw, hpl⟩ := refresh_post s d q1 k1 hw hl
  have hsecond := refresh_short_circuit (refresh s (some d) q1 k1).1 d q2 k2
    hpw hl hpl.symm
  refine ⟨by rw [hsecond], by rw [hsecond], ?_⟩
  rw [hsecond]
  simp only [List.append_nil]
  exact refresh_count_query s (some d) q1 k1

/-- Witness for C4: a fresh dependency view over the one-character R
document; the first call performs the remote query, the second returns at
the short-circuit with no actions. -/
theorem c4_witness :
    (refresh (refresh (⟨false, [], ⟨5, []⟩, 0⟩ : DVState Nat)
          (some ⟨['r'], ['x']⟩) (some 1) true).1
        (some ⟨['r'], ['x']⟩) (some 2) true).2.1 = ROutcome.shortCircuit ∧
    (refresh (refresh (⟨false, [], ⟨5, []⟩, 0⟩ : DVState Nat)
          (some ⟨['r'], ['x']⟩) (some 1) true).1
        (some ⟨['r'], ['x']⟩) (some 2) true).2.2 = [] ∧
    ((refresh (⟨false, [], ⟨5, []⟩, 0⟩ : DVState Nat)
          (some ⟨['r'], ['x']⟩) (some 1) true).2.2 ++
        (refresh (refresh (⟨false, [], ⟨5, []⟩, 0⟩ : DVState Nat)
            (some ⟨['r'], ['x']⟩) (some 1) true).1
          (some ⟨['r'], ['x']⟩) (some 2) true).2.2).count REvent.remoteQuery ≤ 1 :=
  c4_second_refresh_short_circuits (⟨false, [], ⟨5, []⟩, 0⟩ : DVState Nat)
    ⟨['r'], ['x']⟩ (some 1) (some 2) true true rfl rfl

/-- C10: in every `refresh` execution that passes the fingerprint
comparison, `lastText` is set first — before the cache lookup and before any
remote query (the trace is exactly `setLastText, cacheLookup` optionally
followed by `remoteQuery`); consequently, if the remote query fails, an
immediately following refresh of the unchanged document returns at the
short-circuit without retrying the query. -/
theorem c10_lastText_before_query {Res : Type} [Inhabited Res]
    (s : DVState Res) (d : Doc) (q1 q2 : Option Res) (k1 k2 : Bool)
    (hw : s.working = false) (hl : d.languageId = rLang)
    (hne : textFingerprint d.text ≠ s.lastText) :
    ((refresh s (some d) q1 k1).2.2 = [REvent.setLastText, REvent.cacheLookup] ∨
      (refresh s (some d) q1 k1).2.2 =
        [REvent.setLastText, REvent.cacheLookup, REvent.remoteQuery]) ∧
    (refresh s (some d) q1 k1).1.lastText = textFingerprint d.text ∧
    ((refresh (refresh s (some d) none k1).1 (some d) q2 k2).2.1 =
        ROutcome.shortCircuit ∧
      REvent.remoteQuery ∉
        (refresh (refresh s (some d) none k1).1 (some d) q2 k2).2.2) := by
  refine ⟨?_, (refresh_post s d q1 k1 hw hl).2, ?_⟩
  · cases h5 : s.textBuffer.get (fun e => decide (e.1 = textFingerprint d.text)) with
    | some hit =>
      left
      rw [refresh_cache_hit s d q1 k1 hit hw hl hne h5]
    | none =>
      right
      cases q1 with
      | some res => rw [refresh_query_success s d res k1 hw hl hne h5]
      | none => rw [refresh_query_error s d k1 hw hl hne h5]
  · obtain ⟨hpw, hpl⟩ := refresh_post s d none k1 hw hl
    have hsecond := refresh_short_circuit (refresh s (some d) none k1).1 d q2 k2
      hpw hl hpl.symm
    rw [hsecond]
    exact ⟨rfl, by simp⟩

/-- Witness for C10: fresh view, empty cache, failing remote query; the
failing call still sets `lastText`, and the immediately following call over
the unchanged document short-circuits without querying. -/
theorem c10_witness :
    (((refresh (⟨false, [], ⟨5, []⟩, 0⟩ : DVState Nat)
          (some ⟨['r'], ['x']⟩) none true).2.2 =
            [REvent.setLastText, REvent.cacheLookup] ∨
      (refresh (⟨false, [], ⟨5, []⟩, 0⟩ : DVState Nat)
          (some ⟨['r'], ['x']⟩) none true).2.2 =
            [REvent.setLastText, REvent.cacheLookup, REvent.remoteQuery]) ∧
      (refresh (⟨false, [], ⟨5, []⟩, 0⟩ : DVState Nat)
          (some ⟨['r'], ['x']⟩) none true).1.lastText = textFingerprint ['x'] ∧
      ((refresh (refresh (⟨false, [], ⟨5, []⟩, 0⟩ : DVState Nat)
            (some ⟨['r'], ['x']⟩) none true).1
          (some ⟨['r'], ['x']⟩) none true).2.1 = ROutcome.shortCircuit ∧
        REvent.remoteQuery ∉
          (refresh (refresh (⟨false, [], ⟨5, []⟩, 0⟩ : DVState Nat)
              (some ⟨['r'], ['x']⟩) none true).1
            (some ⟨['r'], ['x']⟩) none true).2.2)) :=
  c10_lastText_before_query (⟨false, [], ⟨5, []⟩, 0⟩ : DVState Nat)
    ⟨['r'], ['x']⟩ none none true true rfl rfl (by decide)

/-- The reachability invariant of the refresh guard: the number of in-flight
executions is 1 exactly while the guard is set, else 0. -/
theorem vreachable_invariant (s : VState) (h : VReachable s) :
    s.inFlight = (if s.working then 1 else 0) := by
  induction h with
  | refl => rfl
  | @tail b c hab hbc ih =>
    cases hbc with
    | dropped hw => exact ih
    | earlyReturn hw => exact ih
    | enter hw =>
      simp [hw] at ih
      simp [ih]
    | finish hpos =>
      by_cases hww : b.working = true
      · simp [hww] at ih
        simp [ih]
      · have hw0 : b.working = false := by
          cases hb : b.working
          · rfl
          · exact absurd hb hww
        simp [hw0] at ih
        simp
        omega

/-- C7: at no reachable point are two refresh executions in flight at once —
in every reachable guard state at most one execution is in flight, and the
guard is set exactly while one is (`dropped` arrivals leave the state
unchanged, `finish` clears the guard; both are transitions of `VStep`). -/
theorem c7_no_concurrent_refresh (s : VState) (h : VReachable s) :
    s.inFlight ≤ 1 ∧ (s.working = true ↔ s.inFlight = 1) := by
  have hinv := vreachable_invariant s h
  by_cases hw : s.working = true
  · simp [hw] at hinv
    exact ⟨by omega, ⟨fun _ => hinv, fun _ => hw⟩⟩
  · have hw0 : s.working = false := by
      cases hb : s.working
      · rfl
      · exact absurd hb hw
    simp [hw0] at hinv
    refine ⟨by omega, ⟨fun hc => absurd hc (by simp [hw0]), fun hc => ?_⟩⟩
    rw [hinv] at hc
    exact absurd hc (by decide)

/-- Witness for C7: the state reached after one refresh passes the guard —
one execution in flight, guard set. -/
theorem c7_witness :
    (⟨true, 1⟩ : VState).inFlight ≤ 1 ∧
    ((⟨true, 1⟩ : VState).working = true ↔ (⟨true, 1⟩ : VState).inFlight = 1) :=
  c7_no_concurrent_refresh ⟨true, 1⟩
    (Relation.ReflTransGen.single (VStep.enter ⟨false, 0⟩ rfl))
